import Mathlib

/-!
Verification of the subnet address-space accounting engine and the
version-dispatch decoder selection of the gomaasapi test server.

The Go source operates on `uint64` values (`IP.UInt64()`); machine arithmetic
is modelled as natural-number arithmetic with explicit reduction modulo `2^64`
at every operation performed on `uint64`/`uint` values.  IPv4 CIDR parsing
(`net.ParseCIDR`) is modelled by its arithmetic content: the network address is
the base address with the host bits masked off, and for an IPv4 CIDR
`Mask.Size()` returns `(ones, 32)`.
-/

namespace Gomaasapi

/-- The modulus `2^64` of Go's `uint64` (and 64-bit `uint`) arithmetic. -/
def u64 : ℕ := 18446744073709551616

/-- Wrapping `uint64` addition. -/
def wadd (a b : ℕ) : ℕ := (a + b) % u64

/-- Wrapping `uint64` subtraction. -/
def wsub (a b : ℕ) : ℕ := (a % u64 + (u64 - b % u64)) % u64

/-- The fields of Go's `AddressRange` that carry the computation: `startUint`,
`endUint` and `NumAddresses`.  The `Start`/`End` strings are the dotted-decimal
rendering of `startUint`/`endUint` (a presentation projection) and `Purpose` is
never assigned by the accounting code, so they are omitted. -/
structure AddressRange where
  startUint : ℕ
  endUint : ℕ
  numAddresses : ℕ
deriving DecidableEq, Repr

/-- Builds the range emitted by the Go code: `i.startUint, i.endUint = s, e`
and `i.NumAddresses = uint(1 + e - s)` in wrapping `uint64` arithmetic. -/
def mkRange (s e : ℕ) : AddressRange :=
  { startUint := s, endUint := e, numAddresses := wsub (wadd 1 e) s }

/-- The loop of `subnetUnreservedIPRanges` (testservice, lines 435-462),
walking the sorted in-use addresses with cursor `startIP` and accumulating
emitted ranges in `ranges`; after the loop the final range is emitted iff
`startIP != lastUsableIP`. -/
def unresLoop (lastUsable : ℕ) : List ℕ → ℕ → List AddressRange → List AddressRange
  | [], startIP, ranges =>
      if startIP ≠ lastUsable then ranges ++ [mkRange startIP lastUsable] else ranges
  | e :: rest, startIP, ranges =>
      if e = startIP then
        (if e ≠ lastUsable then unresLoop lastUsable rest (wadd e 1) ranges
         else unresLoop lastUsable rest startIP ranges)
      else if e = lastUsable then
        unresLoop lastUsable rest startIP ranges
      else
        unresLoop lastUsable rest (wadd e 1) (ranges ++ [mkRange startIP (wsub e 1)])

/-- `^((^uint64(0)) << uint(bits-ones))` with `bits = 32`: the host mask. -/
def hostMask (ones : ℕ) : ℕ := 2 ^ (32 - ones) - 1

/-- `net.ParseCIDR` masks the parsed address down to the network address. -/
def networkAddr (base ones : ℕ) : ℕ := base - base % 2 ^ (32 - ones)

/-- `startIP`: the network address plus one (lowest usable address). -/
def firstUsable (base ones : ℕ) : ℕ := networkAddr base ones + 1

/-- `lastUsableIP.SetUInt64((startIP.UInt64() | set) - 1)`: one below the
broadcast address. -/
def lastUsable (base ones : ℕ) : ℕ :=
  (firstUsable base ones ||| hostMask ones) - 1

/-- `TestServer.subnetUnreservedIPRanges`: sorts a copy of the in-use
addresses (Go sorts by `UInt64()`; any sorting algorithm yields the same
value sequence, modelled by insertion sort) and sweeps them. -/
def subnetUnreservedIPRanges (base ones : ℕ) (inUse : List ℕ) : List AddressRange :=
  unresLoop (lastUsable base ones) (List.insertionSort (· ≤ ·) inUse)
    (firstUsable base ones) []

/-- The loop of `subnetReservedIPRanges` (lines 479-490).  State: the emitted
ranges, the start of the current run `startIP`, and the previous address
`lastIP`; returns the final state. -/
def resLoop : List ℕ → List AddressRange → ℕ → ℕ → List AddressRange × ℕ × ℕ
  | [], ranges, startIP, lastIP => (ranges, startIP, lastIP)
  | ip :: rest, ranges, startIP, lastIP =>
      if ip ≠ lastIP ∧ ip ≠ wadd lastIP 1 then
        resLoop rest (ranges ++ [mkRange startIP lastIP]) ip ip
      else
        resLoop rest ranges startIP ip

/-- `TestServer.subnetReservedIPRanges`.  `none` models a Go runtime panic:
the function indexes `ipAddresses[0]` without checking for emptiness, and
after the loop indexes `ranges[len(ranges)-1]` without checking that any
range was emitted (lines 476 and 491). -/
def subnetReservedIPRanges (inUse : List ℕ) : Option (List AddressRange) :=
  let sorted := List.insertionSort (· ≤ ·) inUse
  match sorted with
  | [] => none
  | x :: rest =>
      let res := resLoop (x :: rest) [] x x
      match res.1.getLast? with
      | none => none
      | some r =>
          some (if r.endUint ≠ res.2.2 then res.1 ++ [mkRange res.2.1 res.2.2] else res.1)

/-- Go's `SubnetStats`.  `Usage` is a `float32`; it is modelled as an exact
rational, with `none` standing for the non-finite float produced by dividing
by a zero `TotalAddresses` (`0/0` is NaN).  At every concrete input used in
the theorems below the `float32` division is exact.  `UsageString` is a
formatting projection of `Usage` and is omitted. -/
structure SubnetStats where
  numAvailable : ℕ
  largestAvailable : ℕ
  numUnavailable : ℕ
  totalAddresses : ℕ
  usage : Option ℚ
  ranges : List AddressRange
deriving DecidableEq

/-- `TestServer.subnetStatistics` (lines 513-538).  `TotalAddresses` is
`(1 << uint(bits-ones)) - 2` in `uint` arithmetic (which underflows for a
/32), `NumUnavailable` is the raw length of the in-use list (duplicates are
not removed), and `LargestAvailable` is the running maximum of
`NumAddresses` over the unreserved ranges. -/
def subnetStatistics (base ones : ℕ) (inUse : List ℕ) (includeRanges : Bool) :
    SubnetStats :=
  let totalAddresses := wsub (2 ^ (32 - ones)) 2
  let numUnavailable := inUse.length % u64
  let numAvailable := wsub totalAddresses numUnavailable
  let usage : Option ℚ :=
    if totalAddresses = 0 then none
    else some ((numUnavailable : ℚ) / (totalAddresses : ℚ))
  let reserved := subnetUnreservedIPRanges base ones inUse
  let largestAvailable :=
    reserved.foldl (fun acc r => if acc < r.numAddresses then r.numAddresses else acc) 0
  { numAvailable := numAvailable
    largestAvailable := largestAvailable
    numUnavailable := numUnavailable
    totalAddresses := totalAddresses
    usage := usage
    ranges := if includeRanges then reserved else [] }

/-- An address `a` lies in one of the ranges of `rs`. -/
def coveredBy (a : ℕ) (rs : List AddressRange) : Prop :=
  ∃ r ∈ rs, r.startUint ≤ a ∧ a ≤ r.endUint

instance (a : ℕ) (rs : List AddressRange) : Decidable (coveredBy a rs) := by
  unfold coveredBy; infer_instance

/-- State-passing embedding of a call to `subnetUnreservedIPRanges`.  The Go
function copies the caller's slice (`make` + `copy`, lines 412-413) and sorts
only the copy, so the caller's collection after the call — the second
component — is the unchanged input.  An implementation that instead ran
`sort.Sort` on `subnet.InUseIPAddresses` itself would return the sorted list
as the post-call state. -/
def subnetUnreservedIPRangesCall (base ones : ℕ) (inUse : List ℕ) :
    List AddressRange × List ℕ :=
  (subnetUnreservedIPRanges base ones inUse, inUse)

/-- State-passing embedding of a call to `subnetReservedIPRanges` (the Go
function copies the slice the same way, lines 469-470). -/
def subnetReservedIPRangesCall (inUse : List ℕ) :
    Option (List AddressRange) × List ℕ :=
  (subnetReservedIPRanges inUse, inUse)

/-- Modelled from the spec (§9): versions with a total "greatest key not
exceeding the target" order.  The comparator `version.Number.Compare` lives in
the external `juju/version` dependency (not part of this repository); it is a
total order on version numbers, modelled here lexicographically on
major/minor.  The `Tag`/`Patch`/`Build` components play no role for the single
registered key `2.0`. -/
structure VersionNumber where
  major : ℕ
  minor : ℕ
deriving DecidableEq, Repr

/-- `a.Compare(b) <= 0` of `juju/version`, i.e. `a ≤ b` lexicographically. -/
def vle (a b : VersionNumber) : Prop :=
  a.major < b.major ∨ (a.major = b.major ∧ a.minor ≤ b.minor)

/-- `a.Compare(b) < 0`, i.e. `a < b` lexicographically. -/
def vlt (a b : VersionNumber) : Prop :=
  a.major < b.major ∨ (a.major = b.major ∧ a.minor < b.minor)

instance (a b : VersionNumber) : Decidable (vle a b) := by
  unfold vle; infer_instance

instance (a b : VersionNumber) : Decidable (vlt a b) := by
  unfold vlt; infer_instance

/-- `version.Zero`, the zero value of `version.Number`. -/
def versionZero : VersionNumber := ⟨0, 0⟩

/-- `twoDotOh = version.Number{Major: 2, Minor: 0}`. -/
def twoDotOh : VersionNumber := ⟨2, 0⟩

/-- The body of the loop of `getDeviceDeserializationFunc` (lines 179-183):
keep `v` whenever
`v.Compare(deserialisationVersion) > 0 && v.Compare(controllerVersion) <= 0`. -/
def selectStep (target best v : VersionNumber) : VersionNumber :=
  if vlt best v ∧ vle v target then v else best

/-- The loop of `getDeviceDeserializationFunc`: iterate over the registered
keys (in an arbitrary order, as Go map iteration order is unspecified),
starting from the zero value. -/
def selectDeserializationVersion (keys : List VersionNumber)
    (target : VersionNumber) : VersionNumber :=
  keys.foldl (selectStep target) versionZero

/-- `getDeviceDeserializationFunc` at the level of version keys: the decoder
returned is the map entry of the selected version, so the selected key
determines it; `none` models the `NewUnsupportedVersionError` return taken
when the selected version is still `version.Zero` (lines 184-186). -/
def getDeviceDeserializationVersion (keys : List VersionNumber)
    (target : VersionNumber) : Option VersionNumber :=
  let v := selectDeserializationVersion keys target
  if v = versionZero then none else some v

/-- The key set of the `deviceDeserializationFuncs` map (line 209): the single
entry `twoDotOh ↦ device_2_0`. -/
def deviceDeserializationKeys : List VersionNumber := [twoDotOh]

/-- Removes, from a sorted list, every element equal to its predecessor
(`prev` is the element preceding the list).  Used to show that the
reserved-range loop is insensitive to duplicated input addresses. -/
def stripDups (prev : ℕ) : List ℕ → List ℕ
  | [] => []
  | x :: xs => if x = prev then stripDups prev xs else x :: stripDups x xs

/-! Arithmetic facts about the wrapping operations and the CIDR boundary
computations. -/

theorem u64_eq : u64 = 2 ^ 64 := by decide

theorem wadd_eq {a b : ℕ} (h : a + b < u64) : wadd a b = a + b := by
  unfold wadd u64 at *
  omega

theorem wsub_eq {a b : ℕ} (hba : b ≤ a) (ha : a < u64) : wsub a b = a - b := by
  unfold wsub u64 at *
  omega

theorem wsub_lt (a b : ℕ) : wsub a b < u64 := by
  unfold wsub u64
  omega

/-- Bitwise-or of a number whose low `k` bits hold `r` with the all-ones mask
`2^k - 1` saturates the low bits. -/
theorem lor_mask (k : ℕ) : ∀ q r : ℕ, r < 2 ^ k →
    (2 ^ k * q + r) ||| (2 ^ k - 1) = 2 ^ k * q + (2 ^ k - 1) := by
  induction k with
  | zero =>
      intro q r hr
      have : r = 0 := by omega
      subst this
      simp
  | succ k ih =>
      intro q r hr
      have hp : 0 < 2 ^ k := Nat.two_pow_pos k
      have hps : (2 : ℕ) ^ (k + 1) = 2 * 2 ^ k := by rw [pow_succ]; ring
      have hm2 : (2 ^ (k + 1) - 1) % 2 = 1 := by omega
      have hmd : (2 ^ (k + 1) - 1) / 2 = 2 ^ k - 1 := by omega
      have hxe : 2 ^ (k + 1) * q + r = 2 * (2 ^ k * q) + r := by
        rw [hps, mul_assoc]
      have hxd : (2 ^ (k + 1) * q + r) / 2 = 2 ^ k * q + r / 2 := by
        rw [hxe]
        exact Nat.mul_add_div (by norm_num) _ _
      have hrd : r / 2 < 2 ^ k := by omega
      have hmod : ((2 ^ (k + 1) * q + r) ||| (2 ^ (k + 1) - 1)) % 2 = 1 :=
        Nat.or_mod_two_eq_one.mpr (Or.inr hm2)
      have hdiv : ((2 ^ (k + 1) * q + r) ||| (2 ^ (k + 1) - 1)) / 2 =
          (2 ^ k * q + r / 2) ||| (2 ^ k - 1) := by
        rw [Nat.or_div_two, hxd, hmd]
      have hrec := Nat.div_add_mod ((2 ^ (k + 1) * q + r) ||| (2 ^ (k + 1) - 1)) 2
      rw [hdiv, ih _ _ hrd, hmod] at hrec
      omega

theorem networkAddr_eq (base ones : ℕ) :
    networkAddr base ones = 2 ^ (32 - ones) * (base / 2 ^ (32 - ones)) := by
  unfold networkAddr
  have := Nat.div_add_mod base (2 ^ (32 - ones))
  omega

theorem networkAddr_le (base ones : ℕ) : networkAddr base ones ≤ base := by
  unfold networkAddr
  omega

/-- For prefixes up to /31, the last usable address is the network address
plus the host mask, minus one (i.e. broadcast − 1). -/
theorem lastUsable_eq (base ones : ℕ) (hones : ones ≤ 31) :
    lastUsable base ones = networkAddr base ones + (2 ^ (32 - ones) - 1) - 1 := by
  have hk : 1 ≤ 32 - ones := by omega
  have h1 : (1 : ℕ) < 2 ^ (32 - ones) :=
    lt_of_lt_of_le (by norm_num) (Nat.pow_le_pow_right (by norm_num) hk)
  unfold lastUsable firstUsable hostMask
  rw [networkAddr_eq]
  rw [lor_mask (32 - ones) (base / 2 ^ (32 - ones)) 1 h1]

/-- For a /32 (or any larger prefix value) the host mask is zero and the
"last usable" address collapses to the network address itself. -/
theorem lastUsable_ge32 (base ones : ℕ) (hones : 32 ≤ ones) :
    lastUsable base ones = networkAddr base ones := by
  have h0 : 32 - ones = 0 := by omega
  unfold lastUsable firstUsable hostMask
  rw [h0]
  simp

/-! Concrete evaluations.  Addresses: 10.0.0.0 = 167772160, 10.0.0.N =
167772160 + N. -/

/-- C2 counterexample: for CIDR 10.0.0.0/30 with in-use {10.0.0.1}, the code
returns NO unreserved range (the final single-address free range
[10.0.0.2, 10.0.0.2] is dropped because the cursor has advanced exactly to
`lastUsableIP` and the final emission is guarded by `startIP != lastUsableIP`),
and consequently `LargestAvailable` is 0, not 1 as the claim states. -/
theorem c2_counterexample :
    subnetUnreservedIPRanges 167772160 30 [167772161] ≠
      [{ startUint := 167772162, endUint := 167772162, numAddresses := 1 }] ∧
    (subnetStatistics 167772160 30 [167772161] false).largestAvailable ≠ 1 := by
  decide

/-- C2 amended: for CIDR 10.0.0.0/30 with in-use {10.0.0.1}, the unreserved
computation returns the empty list and the statistics are total = 2,
unavailable = 1, available = 1, largestAvailable = 0 and usage = 0.5. -/
theorem c2_amended : ∀ b : Bool,
    subnetUnreservedIPRanges 167772160 30 [167772161] = [] ∧
    (subnetStatistics 167772160 30 [167772161] b).totalAddresses = 2 ∧
    (subnetStatistics 167772160 30 [167772161] b).numUnavailable = 1 ∧
    (subnetStatistics 167772160 30 [167772161] b).numAvailable = 1 ∧
    (subnetStatistics 167772160 30 [167772161] b).largestAvailable = 0 ∧
    (subnetStatistics 167772160 30 [167772161] b).usage = some (1 / 2) ∧
    (subnetStatistics 167772160 30 [167772161] b).ranges = [] := by
  have h1 : ([167772161] : List ℕ).length % u64 = 1 := by decide
  have h2 : wsub (2 ^ (32 - 30)) 2 = 2 := by decide
  intro b
  cases b <;>
    refine ⟨by decide, by decide, by decide, by decide, by decide, ?_, by decide⟩ <;>
    · simp only [subnetStatistics, h1, h2]
      norm_num

/-- C3: invoked on an empty in-use set, the reserved-range computation does
not return a descriptive error value; it panics (out-of-range index
`ipAddresses[0]`, line 476), modelled by `none`. -/
theorem c3_reserved_empty_panics : subnetReservedIPRanges [] = none := by
  decide

/-- C4: on non-empty in-use sets forming a single contiguous run (e.g. the
single address 10.0.0.5, or the run 10.0.0.3–10.0.0.5) the loop emits no
range, and the final check `ranges[len(ranges)-1].endUint != lastIP`
(line 491) indexes an empty slice: a runtime panic, modelled by `none`,
instead of the claimed one-run result. -/
theorem c4_reserved_single_run_panics :
    subnetReservedIPRanges [167772165] = none ∧
    subnetReservedIPRanges [167772163, 167772164, 167772165] = none := by
  decide

/-- C4 adjunct: on an input with at least two runs the computation does
return the coalesced runs (matching the spec); the defect is confined to
single-run inputs. -/
theorem c4_reserved_two_runs_ok :
    subnetReservedIPRanges [167772163, 167772164, 167772165, 167772169] =
      some
        [{ startUint := 167772163, endUint := 167772165, numAddresses := 3 },
         { startUint := 167772169, endUint := 167772169, numAddresses := 1 }] := by
  decide

/-- C7 counterexample: for a /31 the unreserved computation returns one
degenerate range (length 1, not a zero-length list) and the usage fraction is
a division by zero (NaN, modelled `none`), not 0; for a /32 `TotalAddresses`
is `(1 << 0) - 2` in uint arithmetic, i.e. 2^64 - 1, not 0; and a non-empty
in-use set on a /31 makes `NumAvailable` underflow to 2^64 - 1. -/
theorem c7_counterexample :
    (subnetUnreservedIPRanges 167772160 31 []).length = 1 ∧
    (subnetStatistics 167772160 31 [] false).usage = none ∧
    (subnetStatistics 167772160 32 [] false).totalAddresses =
      18446744073709551615 ∧
    (subnetStatistics 167772160 31 [167772160] false).numAvailable =
      18446744073709551615 := by
  decide

/-- C8 counterexample: the duplicated in-use list [10.0.0.3, 10.0.0.3] on
10.0.0.0/28 yields `NumUnavailable` = 2 (the raw slice length) versus 1 for
the deduplicated input, and the unreserved-range lists differ as well (the
duplicate produces a garbage extra range). -/
theorem c8_counterexample :
    (subnetStatistics 167772160 28 [167772163, 167772163] false).numUnavailable
      = 2 ∧
    (subnetStatistics 167772160 28
        (List.dedup [167772163, 167772163]) false).numUnavailable = 1 ∧
    subnetUnreservedIPRanges 167772160 28 [167772163, 167772163] ≠
      subnetUnreservedIPRanges 167772160 28 (List.dedup [167772163, 167772163]) := by
  decide

/-- C6 counterexample: three ways `LargestAvailable > NumAvailable` occurs —
the last usable address 10.0.0.2 of 10.0.0.0/30 in use (the final emitted
range wrongly includes it, so largest = 2 > 1 = available); a duplicated
address (garbage range with wrapped `NumAddresses`); and an out-of-range
in-use address (the network address itself). -/
theorem c6_counterexample :
    ((subnetStatistics 167772160 30 [167772162] false).numAvailable <
      (subnetStatistics 167772160 30 [167772162] false).largestAvailable) ∧
    ((subnetStatistics 167772160 28 [167772163, 167772163] false).numAvailable <
      (subnetStatistics 167772160 28 [167772163, 167772163] false).largestAvailable) ∧
    ((subnetStatistics 167772160 28 [167772160] false).numAvailable <
      (subnetStatistics 167772160 28 [167772160] false).largestAvailable) := by
  decide

/-- C1 counterexample: four concrete violations of the claim on prefix-30/28
subnets of 10.0.0.0 — (a) with in-use {10.0.0.1} the usable address 10.0.0.2
is neither in use nor covered by any returned range (the union does not cover
[firstUsable, lastUsable]); (b) with in-use {10.0.0.2} (= lastUsable) the
returned range covers the in-use address (overlap); (c) the duplicated list
[10.0.0.1, 10.0.0.1] also leaves 10.0.0.2 uncovered; (d) with the in-use set
{10.0.0.2, 10.0.0.5} containing an address beyond lastUsable, the in-use
in-range address 10.0.0.2 is covered by a returned range (overlap). -/
theorem c1_counterexample :
    (firstUsable 167772160 30 ≤ 167772162 ∧
      167772162 ≤ lastUsable 167772160 30 ∧
      (167772162 : ℕ) ∉ ([167772161] : List ℕ) ∧
      ¬ coveredBy 167772162 (subnetUnreservedIPRanges 167772160 30 [167772161])) ∧
    ((167772162 : ℕ) ∈ ([167772162] : List ℕ) ∧
      coveredBy 167772162 (subnetUnreservedIPRanges 167772160 30 [167772162])) ∧
    ((167772162 : ℕ) ∉ ([167772161, 167772161] : List ℕ) ∧
      ¬ coveredBy 167772162
          (subnetUnreservedIPRanges 167772160 30 [167772161, 167772161])) ∧
    ((167772162 : ℕ) ∈ ([167772162, 167772165] : List ℕ) ∧
      167772162 ≤ lastUsable 167772160 30 ∧
      coveredBy 167772162
        (subnetUnreservedIPRanges 167772160 30 [167772162, 167772165])) := by
  decide

/-- C5: in the statistics record the `uint` fields always satisfy
`NumAvailable + NumUnavailable == TotalAddresses` — the sum is taken in the
program's own wrapping 64-bit unsigned arithmetic, exactly as the Go
expression would evaluate it (`NumAvailable` is computed as
`TotalAddresses - NumUnavailable` in `uint`). -/
theorem c5_stats_sum_invariant (base ones : ℕ) (inUse : List ℕ) (b : Bool) :
    ((subnetStatistics base ones inUse b).numAvailable +
        (subnetStatistics base ones inUse b).numUnavailable) % u64 =
      (subnetStatistics base ones inUse b).totalAddresses := by
  show (wsub (wsub (2 ^ (32 - ones)) 2) (inUse.length % u64) +
      inUse.length % u64) % u64 = wsub (2 ^ (32 - ones)) 2
  unfold wsub u64
  omega

/-- C9: calling either range computation twice on the same input yields the
same output, and the caller's in-use collection after a call is the input
unchanged (the Go code sorts a fresh copy of the slice, never the caller's
slice). -/
theorem c9_idempotent_no_mutation (base ones : ℕ) (inUse : List ℕ) :
    (subnetUnreservedIPRangesCall base ones inUse).2 = inUse ∧
    (subnetUnreservedIPRangesCall base ones
        (subnetUnreservedIPRangesCall base ones inUse).2).1 =
      (subnetUnreservedIPRangesCall base ones inUse).1 ∧
    (subnetReservedIPRangesCall inUse).2 = inUse ∧
    (subnetReservedIPRangesCall ((subnetReservedIPRangesCall inUse).2)).1 =
      (subnetReservedIPRangesCall inUse).1 :=
  ⟨rfl, rfl, rfl, rfl⟩

/-! The version-dispatch selection (C10). -/

theorem vle_refl (a : VersionNumber) : vle a a := by
  unfold vle
  omega

theorem vle_trans {a b c : VersionNumber} (h1 : vle a b) (h2 : vle b c) :
    vle a c := by
  unfold vle at *
  omega

theorem vlt_trans {a b c : VersionNumber} (h1 : vlt a b) (h2 : vlt b c) :
    vlt a c := by
  unfold vlt at *
  omega

theorem vle_of_vlt {a b : VersionNumber} (h : vlt a b) : vle a b := by
  unfold vlt at h
  unfold vle
  omega

theorem vle_of_not_vlt {a b : VersionNumber} (h : ¬ vlt a b) : vle b a := by
  unfold vlt at h
  unfold vle
  omega

theorem not_vle_of_vlt {a b : VersionNumber} (h : vlt a b) : ¬ vle b a := by
  unfold vlt at h
  unfold vle
  omega

theorem ne_of_vlt {a b : VersionNumber} (h : vlt a b) : b ≠ a := by
  intro he
  subst he
  unfold vlt at h
  omega

theorem vle_antisymm {a b : VersionNumber} (h1 : vle a b) (h2 : vle b a) :
    a = b := by
  obtain ⟨am, an⟩ := a
  obtain ⟨bm, bn⟩ := b
  simp only [vle] at h1 h2
  simp only [VersionNumber.mk.injEq]
  omega

/-- The selection step is commutative as a fold body: the selected version
does not depend on the order in which two keys are inspected. -/
theorem selectStep_comm (t x y z : VersionNumber) :
    selectStep t (selectStep t z x) y = selectStep t (selectStep t z y) x := by
  obtain ⟨xm, xn⟩ := x
  obtain ⟨ym, yn⟩ := y
  obtain ⟨zm, zn⟩ := z
  obtain ⟨tm, tn⟩ := t
  simp only [selectStep, vlt, vle]
  split_ifs <;> simp_all [VersionNumber.mk.injEq] <;> omega

/-- The fold either keeps the initial value or returns a key that satisfies
the target bound and strictly improves on the initial value. -/
theorem select_fold_mem (t : VersionNumber) :
    ∀ (keys : List VersionNumber) (b : VersionNumber),
      List.foldl (selectStep t) b keys = b ∨
        (List.foldl (selectStep t) b keys ∈ keys ∧
          vle (List.foldl (selectStep t) b keys) t ∧
          vlt b (List.foldl (selectStep t) b keys)) := by
  intro keys
  induction keys with
  | nil => intro b; left; rfl
  | cons k ks ih =>
      intro b
      rw [List.foldl_cons]
      by_cases hc : vlt b k ∧ vle k t
      · have hk : selectStep t b k = k := by
          unfold selectStep
          exact if_pos hc
        rw [hk]
        rcases ih k with h | ⟨hmem, hle, hlt⟩
        · right
          exact ⟨by rw [h]; exact List.mem_cons_self k ks, by rw [h]; exact hc.2,
            by rw [h]; exact hc.1⟩
        · right
          exact ⟨List.mem_cons_of_mem _ hmem, hle, vlt_trans hc.1 hlt⟩
      · have hk : selectStep t b k = b := by
          unfold selectStep
          exact if_neg hc
        rw [hk]
        rcases ih b with h | ⟨hmem, hle, hlt⟩
        · left; exact h
        · right; exact ⟨List.mem_cons_of_mem _ hmem, hle, hlt⟩

/-- The fold result dominates the initial value. -/
theorem vle_fold_self (t : VersionNumber) (keys : List VersionNumber)
    (b : VersionNumber) : vle b (List.foldl (selectStep t) b keys) := by
  rcases select_fold_mem t keys b with h | ⟨_, _, hlt⟩
  · rw [h]; exact vle_refl b
  · exact vle_of_vlt hlt

/-- Every key within the target bound is dominated by the fold result. -/
theorem select_fold_ub (t : VersionNumber) :
    ∀ (keys : List VersionNumber) (b : VersionNumber),
      ∀ k ∈ keys, vle k t → vle k (List.foldl (selectStep t) b keys) := by
  intro keys
  induction keys with
  | nil => intro b k hk; cases hk
  | cons k0 ks ih =>
      intro b k hk hkt
      rw [List.foldl_cons]
      rcases List.mem_cons.mp hk with rfl | hmem
      · have h1 : vle k (selectStep t b k) := by
          unfold selectStep
          by_cases hc : vlt b k ∧ vle k t
          · rw [if_pos hc]; exact vle_refl k
          · rw [if_neg hc]
            have : ¬ vlt b k := fun hbk => hc ⟨hbk, hkt⟩
            exact vle_of_not_vlt this
        exact vle_trans h1 (vle_fold_self t ks _)
      · exact ih _ k hmem hkt

/-- C10: (1) the decoder selection is invariant under permutations of the
registered keys (Go map enumeration order cannot affect it); (2) whenever
every registered key is nonzero (true of the actual registry, whose only key
is 2.0), the selection returns exactly the greatest registered key not
exceeding the target, and reports the unsupported-version error exactly when
no registered key is at most the target. -/
theorem c10_version_dispatch :
    (∀ (keys keys' : List VersionNumber) (target : VersionNumber),
        List.Perm keys keys' →
        getDeviceDeserializationVersion keys target =
          getDeviceDeserializationVersion keys' target) ∧
    (∀ (keys : List VersionNumber) (target v : VersionNumber),
        (∀ k ∈ keys, vlt versionZero k) →
        ((getDeviceDeserializationVersion keys target = some v ↔
            v ∈ keys ∧ vle v target ∧ ∀ k ∈ keys, vle k target → vle k v) ∧
          (getDeviceDeserializationVersion keys target = none ↔
            ∀ k ∈ keys, ¬ vle k target))) := by
  constructor
  · intro keys keys' target hperm
    unfold getDeviceDeserializationVersion selectDeserializationVersion
    rw [hperm.foldl_eq' (fun x _ y _ z => selectStep_comm target x y z) versionZero]
  · intro keys target v hpos
    have hub := select_fold_ub target keys versionZero
    unfold getDeviceDeserializationVersion selectDeserializationVersion
    rcases select_fold_mem target keys versionZero with h0 | ⟨hmem, hle, hlt⟩
    · rw [h0]
      simp only [if_pos rfl]
      constructor
      · constructor
        · intro h; cases h
        · rintro ⟨hv, hvt, _⟩
          have h1 : vle v versionZero := by
            have := hub v hv hvt
            rwa [h0] at this
          exact absurd h1 (not_vle_of_vlt (hpos v hv))
      · constructor
        · intro _ k hk hkt
          have h1 : vle k versionZero := by
            have := hub k hk hkt
            rwa [h0] at this
          exact absurd h1 (not_vle_of_vlt (hpos k hk))
        · intro _; rfl
    · set r := List.foldl (selectStep target) versionZero keys with hr
      have hne : r ≠ versionZero := ne_of_vlt hlt
      rw [if_neg hne]
      constructor
      · constructor
        · intro h
          have hrv : r = v := by injection h
          subst hrv
          exact ⟨hmem, hle, fun k hk hkt => hub k hk hkt⟩
        · rintro ⟨hv, hvt, hmax⟩
          have h1 : vle v r := hub v hv hvt
          have h2 : vle r v := hmax r hmem hle
          rw [vle_antisymm h2 h1]
      · constructor
        · intro h; cases h
        · intro hall
          exact absurd hle (hall r hmem)

/-- C10 witness: concrete instances — swapping two hypothetical keys leaves
the result unchanged, and on the actual registry {2.0} a 2.5 controller
selects 2.0 while a 1.9 controller is unsupported. -/
theorem c10_witness :
    getDeviceDeserializationVersion [twoDotOh, ⟨3, 1⟩] ⟨3, 0⟩ =
      getDeviceDeserializationVersion [⟨3, 1⟩, twoDotOh] ⟨3, 0⟩ ∧
    getDeviceDeserializationVersion deviceDeserializationKeys ⟨2, 5⟩ =
      some twoDotOh ∧
    getDeviceDeserializationVersion deviceDeserializationKeys ⟨1, 9⟩ = none :=
  ⟨c10_version_dispatch.1 _ _ _ (List.Perm.swap _ _ _),
    (c10_version_dispatch.2 deviceDeserializationKeys ⟨2, 5⟩ twoDotOh
        (by decide)).1.mpr ⟨by decide, by decide, by decide⟩,
    (c10_version_dispatch.2 deviceDeserializationKeys ⟨1, 9⟩ twoDotOh
        (by decide)).2.mpr (by decide)⟩

/-! Duplicate-insensitivity of the reserved-range computation (C8). -/

/-- Strictly sorted lists with the same members are equal. -/
theorem sorted_ext : ∀ (l1 l2 : List ℕ), List.Pairwise (· < ·) l1 →
    List.Pairwise (· < ·) l2 → (∀ a, a ∈ l1 ↔ a ∈ l2) → l1 = l2 := by
  intro l1
  induction l1 with
  | nil =>
      intro l2 _ _ hm
      cases l2 with
      | nil => rfl
      | cons b t =>
          exact absurd ((hm b).mpr (List.mem_cons_self b t)) (List.not_mem_nil b)
  | cons a t1 ih =>
      intro l2 h1 h2 hm
      cases l2 with
      | nil =>
          exact absurd ((hm a).mp (List.mem_cons_self a t1)) (List.not_mem_nil a)
      | cons b t2 =>
          have hab : a = b := by
            have ha2 : a ∈ b :: t2 := (hm a).mp (List.mem_cons_self a t1)
            have hb1 : b ∈ a :: t1 := (hm b).mpr (List.mem_cons_self b t2)
            rcases List.mem_cons.mp ha2 with h | h
            · exact h
            · rcases List.mem_cons.mp hb1 with h' | h'
              · exact h'.symm
              · have hba : b < a := (List.pairwise_cons.mp h2).1 a h
                have hab' : a < b := (List.pairwise_cons.mp h1).1 b h'
                omega
          subst hab
          congr 1
          apply ih t2 (List.pairwise_cons.mp h1).2 (List.pairwise_cons.mp h2).2
          intro x
          constructor
          · intro hx
            have hx2 : x ∈ a :: t2 := (hm x).mp (List.mem_cons_of_mem _ hx)
            rcases List.mem_cons.mp hx2 with rfl | h
            · have : x < x := (List.pairwise_cons.mp h1).1 x hx
              omega
            · exact h
          · intro hx
            have hx1 : x ∈ a :: t1 := (hm x).mpr (List.mem_cons_of_mem _ hx)
            rcases List.mem_cons.mp hx1 with rfl | h
            · have : x < x := (List.pairwise_cons.mp h2).1 x hx
              omega
            · exact h

theorem stripDups_mem : ∀ (l : List ℕ) (prev a : ℕ),
    a ∈ prev :: stripDups prev l ↔ a ∈ prev :: l := by
  intro l
  induction l with
  | nil => intro prev a; exact Iff.rfl
  | cons x xs ih =>
      intro prev a
      have ihx := ih x a
      simp only [List.mem_cons] at ihx
      by_cases h : x = prev
      · subst h
        simp only [stripDups, if_pos rfl, List.mem_cons]
        tauto
      · simp only [stripDups, if_neg h, List.mem_cons]
        tauto

theorem stripDups_sorted : ∀ (l : List ℕ) (prev : ℕ),
    List.Pairwise (· ≤ ·) (prev :: l) →
    List.Pairwise (· < ·) (prev :: stripDups prev l) := by
  intro l
  induction l with
  | nil => intro prev _; simp [stripDups]
  | cons x xs ih =>
      intro prev hp
      obtain ⟨hple, hpx⟩ := List.pairwise_cons.mp hp
      simp only [stripDups]
      by_cases h : x = prev
      · rw [if_pos h]
        apply ih prev
        rw [List.pairwise_cons]
        exact ⟨fun b hb => hple b (List.mem_cons_of_mem _ hb),
          (List.pairwise_cons.mp hpx).2⟩
      · rw [if_neg h]
        have hx : List.Pairwise (· < ·) (x :: stripDups x xs) := ih x hpx
        rw [List.pairwise_cons]
        refine ⟨?_, hx⟩
        intro b hb
        have hb' : b ∈ x :: xs := (stripDups_mem xs x b).mp hb
        have hxb : x ≤ b := by
          rcases List.mem_cons.mp hb' with rfl | hbx
          · exact le_refl b
          · exact (List.pairwise_cons.mp hpx).1 b hbx
        have hplex : prev ≤ x := hple x (List.mem_cons_self x xs)
        have : prev ≠ x := fun he => h he.symm
        omega

/-- The reserved-range loop ignores an address equal to the previous one, so
running it on a sorted list is the same as running it on the list with
adjacent duplicates removed. -/
theorem resLoop_stripDups : ∀ (l : List ℕ) (prev s : ℕ) (acc : List AddressRange),
    resLoop l acc s prev = resLoop (stripDups prev l) acc s prev := by
  intro l
  induction l with
  | nil => intro prev s acc; rfl
  | cons x xs ih =>
      intro prev s acc
      simp only [stripDups]
      by_cases h : x = prev
      · rw [if_pos h]
        have hc : ¬ (x ≠ prev ∧ x ≠ wadd prev 1) := fun hc => hc.1 h
        simp only [resLoop, if_neg hc]
        rw [h]
        exact ih prev s acc
      · rw [if_neg h]
        simp only [resLoop]
        by_cases hc : x ≠ prev ∧ x ≠ wadd prev 1
        · rw [if_pos hc, if_pos hc]
          exact ih x x (acc ++ [mkRange s prev])
        · rw [if_neg hc, if_neg hc]
          exact ih x s acc

theorem pairwise_lt_of_le_nodup : ∀ (l : List ℕ), List.Pairwise (· ≤ ·) l →
    l.Nodup → List.Pairwise (· < ·) l := by
  intro l
  induction l with
  | nil => intro _ _; exact List.Pairwise.nil
  | cons a t ih =>
      intro hle hnd
      rw [List.pairwise_cons] at hle ⊢
      rw [List.nodup_cons] at hnd
      refine ⟨fun b hb => lt_of_le_of_ne (hle.1 b hb) ?_, ih hle.2 hnd.2⟩
      intro he
      exact hnd.1 (he ▸ hb)

/-- C8 amended: the reserved-range computation returns the same result (the
same ranges, and a panic in the same cases) on an in-use list with duplicates
as on its deduplicated equivalent.  (The unreserved-range computation and the
statistics are NOT duplicate-insensitive — see the counterexample.) -/
theorem c8_amended (inUse : List ℕ) :
    subnetReservedIPRanges inUse = subnetReservedIPRanges inUse.dedup := by
  by_cases hnil : inUse = []
  · subst hnil; rfl
  · obtain ⟨x, t1, h1⟩ : ∃ x t1, List.insertionSort (· ≤ ·) inUse = x :: t1 := by
      cases hs : List.insertionSort (· ≤ ·) inUse with
      | nil =>
          exfalso
          have hp := List.perm_insertionSort (· ≤ ·) inUse
          rw [hs] at hp
          exact hnil hp.symm.eq_nil
      | cons x t => exact ⟨x, t, rfl⟩
    obtain ⟨y, t2, h2⟩ :
        ∃ y t2, List.insertionSort (· ≤ ·) inUse.dedup = y :: t2 := by
      cases hs : List.insertionSort (· ≤ ·) inUse.dedup with
      | nil =>
          exfalso
          have hp := List.perm_insertionSort (· ≤ ·) inUse.dedup
          rw [hs] at hp
          exact hnil ((List.dedup_eq_nil inUse).mp hp.symm.eq_nil)
      | cons y t => exact ⟨y, t, rfl⟩
    have key : x :: stripDups x t1 = y :: t2 := by
      apply sorted_ext
      · apply stripDups_sorted
        have hs := List.sorted_insertionSort (· ≤ ·) inUse
        rw [h1] at hs
        exact hs
      · have hs := List.sorted_insertionSort (· ≤ ·) inUse.dedup
        have hnd : (List.insertionSort (· ≤ ·) inUse.dedup).Nodup :=
          ((List.perm_insertionSort (· ≤ ·) inUse.dedup).nodup_iff).mpr
            (List.nodup_dedup inUse)
        have hlt := pairwise_lt_of_le_nodup _ hs hnd
        rw [h2] at hlt
        exact hlt
      · intro a
        rw [stripDups_mem t1 x a, ← h1, ← h2,
          (List.perm_insertionSort (· ≤ ·) inUse).mem_iff,
          (List.perm_insertionSort (· ≤ ·) inUse.dedup).mem_iff,
          List.mem_dedup]
    have hyx : y = x := by
      injection key with hxy _
      exact hxy.symm
    subst hyx
    have ht2 : t2 = stripDups y t1 := by
      injection key with _ ht
      exact ht.symm
    subst ht2
    have hloop : resLoop (y :: t1) [] y y = resLoop (y :: stripDups y t1) [] y y := by
      have e1 : resLoop (y :: t1) [] y y = resLoop t1 [] y y := by
        simp only [resLoop]
        rw [if_neg]
        intro hc
        exact hc.1 rfl
      have e2 : resLoop (y :: stripDups y t1) [] y y =
          resLoop (stripDups y t1) [] y y := by
        simp only [resLoop]
        rw [if_neg]
        intro hc
        exact hc.1 rfl
      rw [e1, e2, resLoop_stripDups t1 y y []]
    simp only [subnetReservedIPRanges, h1, h2, hloop]

/-! The unreserved-range sweep invariant (C1, C6). -/

theorem coveredBy_nil (a : ℕ) : ¬ coveredBy a [] := by
  rintro ⟨r, hr, -⟩
  cases hr

theorem coveredBy_cons {a : ℕ} {r : AddressRange} {rs : List AddressRange} :
    coveredBy a (r :: rs) ↔
      (r.startUint ≤ a ∧ a ≤ r.endUint) ∨ coveredBy a rs := by
  constructor
  · rintro ⟨r', hr', h⟩
    rcases List.mem_cons.mp hr' with rfl | h2
    · exact Or.inl h
    · exact Or.inr ⟨r', h2, h⟩
  · rintro (h | ⟨r', h2, h⟩)
    · exact ⟨r, List.mem_cons_self r rs, h⟩
    · exact ⟨r', List.mem_cons_of_mem _ h2, h⟩

/-- The accumulator of the sweep loop is a pure prefix of its result. -/
theorem unresLoop_acc (L : ℕ) : ∀ (xs : List ℕ) (c : ℕ) (acc : List AddressRange),
    unresLoop L xs c acc = acc ++ unresLoop L xs c [] := by
  intro xs
  induction xs with
  | nil =>
      intro c acc
      simp only [unresLoop]
      split_ifs <;> simp
  | cons e rest ih =>
      intro c acc
      simp only [unresLoop]
      split_ifs
      · exact ih _ acc
      · exact ih _ acc
      · exact ih _ acc
      · rw [ih _ (acc ++ [mkRange c (wsub e 1)]), ih _ ([] ++ [mkRange c (wsub e 1)])]
        simp

/-- Loop invariant of the unreserved sweep in the clean regime: the cursor
`c` lies in `[1, L]`, the pending in-use addresses are strictly sorted and
lie in `[c, L-1]`.  Then the emitted ranges (i) lie in `[c, L]` with exact
`numAddresses`, (ii) are disjoint and sorted, (iii) cover every non-in-use
address of `[c, L)`, (iv) cover only `[c, L]`, (v) avoid every pending
in-use address, and (vi) cover `L` itself provided `c < L` and no pending
address exceeds `L - 2`. -/
theorem unresLoop_spec (L : ℕ) (hL : L < 2 ^ 33) :
    ∀ (xs : List ℕ) (c : ℕ), 1 ≤ c → c ≤ L →
      List.Pairwise (· < ·) xs → (∀ x ∈ xs, c ≤ x ∧ x + 1 ≤ L) →
      (∀ r ∈ unresLoop L xs c [], c ≤ r.startUint ∧ r.startUint ≤ r.endUint ∧
          r.endUint ≤ L ∧ r.numAddresses = r.endUint + 1 - r.startUint) ∧
      List.Pairwise (fun r r' => r.endUint < r'.startUint) (unresLoop L xs c []) ∧
      (∀ a : ℕ, c ≤ a → a < L → a ∉ xs → coveredBy a (unresLoop L xs c [])) ∧
      (∀ a : ℕ, coveredBy a (unresLoop L xs c []) → c ≤ a ∧ a ≤ L) ∧
      (∀ a ∈ xs, ¬ coveredBy a (unresLoop L xs c [])) ∧
      (c < L → (∀ x ∈ xs, x + 2 ≤ L) → coveredBy L (unresLoop L xs c [])) := by
  have hu64 : u64 = 18446744073709551616 := rfl
  have h33 : (2 : ℕ) ^ 33 = 8589934592 := by norm_num
  intro xs
  induction xs with
  | nil =>
      intro c hc1 hcL _ _
      by_cases hceq : c = L
      · have hres : unresLoop L [] c [] = [] := by
          simp only [unresLoop]
          rw [if_neg (fun h => h hceq)]
        rw [hres]
        refine ⟨?_, List.Pairwise.nil, ?_, ?_, ?_, ?_⟩
        · intro r hr; cases hr
        · intro a ha1 ha2 _; omega
        · intro a hcov; exact absurd hcov (coveredBy_nil a)
        · intro a ha; cases ha
        · intro hlt _; omega
      · have hres : unresLoop L [] c [] = [mkRange c L] := by
          simp only [unresLoop]
          rw [if_pos hceq]
          simp
        have hstart : (mkRange c L).startUint = c := rfl
        have hend : (mkRange c L).endUint = L := rfl
        have hnum : (mkRange c L).numAddresses = L + 1 - c := by
          show wsub (wadd 1 L) c = L + 1 - c
          rw [wadd_eq (by omega), wsub_eq (by omega) (by omega)]
          omega
        rw [hres]
        refine ⟨?_, ?_, ?_, ?_, ?_, ?_⟩
        · intro r hr
          rcases List.mem_cons.mp hr with rfl | h
          · exact ⟨le_of_eq hstart.symm, by omega, le_of_eq hend, hnum⟩
          · cases h
        · simp
        · intro a ha1 ha2 _
          exact ⟨mkRange c L, List.mem_cons_self _ _, by omega, by omega⟩
        · intro a hcov
          rcases coveredBy_cons.mp hcov with ⟨h1, h2⟩ | h
          · rw [hstart] at h1
            rw [hend] at h2
            exact ⟨h1, h2⟩
          · exact absurd h (coveredBy_nil a)
        · intro a ha; cases ha
        · intro hlt _
          exact ⟨mkRange c L, List.mem_cons_self _ _, by omega, by omega⟩
  | cons e rest ih =>
      intro c hc1 hcL hpw hmem
      obtain ⟨hce, heL⟩ := hmem e (List.mem_cons_self e rest)
      have hrest : ∀ x ∈ rest, e < x := (List.pairwise_cons.mp hpw).1
      have hpw' : List.Pairwise (· < ·) rest := (List.pairwise_cons.mp hpw).2
      have hmem' : ∀ x ∈ rest, c ≤ x ∧ x + 1 ≤ L := fun x hx =>
        hmem x (List.mem_cons_of_mem _ hx)
      have heneL : e ≠ L := by omega
      have hwadd : wadd e 1 = e + 1 := wadd_eq (by omega)
      obtain ⟨i1, i2, i3, i4, i5, i6⟩ :=
        ih (e + 1) (by omega) (by omega) hpw'
          (fun x hx => ⟨by have := hrest x hx; omega, (hmem' x hx).2⟩)
      by_cases hec : e = c
      · subst hec
        have hres : unresLoop L (e :: rest) e [] = unresLoop L rest (e + 1) [] := by
          simp only [unresLoop]
          rw [if_pos trivial, if_pos heneL, hwadd]
        rw [hres]
        refine ⟨?_, i2, ?_, ?_, ?_, ?_⟩
        · intro r hr
          obtain ⟨a1, a2, a3, a4⟩ := i1 r hr
          exact ⟨by omega, a2, a3, a4⟩
        · intro a ha1 ha2 hna
          have hne : a ≠ e := fun h => hna (h ▸ List.mem_cons_self e rest)
          exact i3 a (by omega) ha2 (fun h => hna (List.mem_cons_of_mem _ h))
        · intro a hcov
          have := i4 a hcov
          exact ⟨by omega, this.2⟩
        · intro a ha hcov
          rcases List.mem_cons.mp ha with rfl | h
          · have := i4 a hcov
            omega
          · exact i5 a h hcov
        · intro hlt hbound
          have := hbound e (List.mem_cons_self _ _)
          exact i6 (by omega) (fun x hx => hbound x (List.mem_cons_of_mem _ hx))
      · have hclt : c < e := by omega
        have hwsub : wsub e 1 = e - 1 := wsub_eq (by omega) (by omega)
        have hres : unresLoop L (e :: rest) c [] =
            mkRange c (e - 1) :: unresLoop L rest (e + 1) [] := by
          simp only [unresLoop]
          rw [if_neg hec, if_neg heneL, hwadd, hwsub,
            unresLoop_acc L rest (e + 1) ([] ++ [mkRange c (e - 1)])]
          simp
        have hstart : (mkRange c (e - 1)).startUint = c := rfl
        have hend : (mkRange c (e - 1)).endUint = e - 1 := rfl
        have hnum : (mkRange c (e - 1)).numAddresses = (e - 1) + 1 - c := by
          show wsub (wadd 1 (e - 1)) c = (e - 1) + 1 - c
          rw [wadd_eq (by omega), wsub_eq (by omega) (by omega)]
          omega
        rw [hres]
        refine ⟨?_, ?_, ?_, ?_, ?_, ?_⟩
        · intro r hr
          rcases List.mem_cons.mp hr with rfl | h
          · exact ⟨le_of_eq hstart.symm, by rw [hstart, hend]; omega,
              by rw [hend]; omega, hnum⟩
          · obtain ⟨a1, a2, a3, a4⟩ := i1 r h
            exact ⟨by omega, a2, a3, a4⟩
        · rw [List.pairwise_cons]
          refine ⟨?_, i2⟩
          intro r hr
          have h1 := (i1 r hr).1
          rw [hend]
          omega
        · intro a ha1 ha2 hna
          have hne : a ≠ e := fun h => hna (h ▸ List.mem_cons_self e rest)
          by_cases hle : a ≤ e - 1
          · exact coveredBy_cons.mpr (Or.inl (by rw [hstart, hend]; exact ⟨ha1, hle⟩))
          · exact coveredBy_cons.mpr
              (Or.inr (i3 a (by omega) ha2 (fun h => hna (List.mem_cons_of_mem _ h))))
        · intro a hcov
          rcases coveredBy_cons.mp hcov with ⟨h1, h2⟩ | h
          · rw [hstart] at h1
            rw [hend] at h2
            exact ⟨h1, by omega⟩
          · have := i4 a h
            exact ⟨by omega, this.2⟩
        · intro a ha hcov
          rcases coveredBy_cons.mp hcov with ⟨h1, h2⟩ | h
          · rw [hstart] at h1
            rw [hend] at h2
            rcases List.mem_cons.mp ha with rfl | hm
            · omega
            · have := hrest a hm
              omega
          · rcases List.mem_cons.mp ha with rfl | hm
            · have := i4 a h
              omega
            · exact i5 a hm h
        · intro hlt hbound
          have he2 := hbound e (List.mem_cons_self _ _)
          exact coveredBy_cons.mpr
            (Or.inr (i6 (by omega) (fun x hx => hbound x (List.mem_cons_of_mem _ hx))))

/-- Basic boundary facts for prefixes up to /30: the first usable address is
positive and strictly below the last usable one, the last usable address is
bounded, and the usable span size is `2^(32-ones) - 2`. -/
theorem subnet_bounds (base ones : ℕ) (hbase : base < 2 ^ 32) (hones : ones ≤ 30) :
    1 ≤ firstUsable base ones ∧
    firstUsable base ones < lastUsable base ones ∧
    lastUsable base ones < 2 ^ 33 ∧
    lastUsable base ones + 1 - firstUsable base ones = 2 ^ (32 - ones) - 2 := by
  have hk : 2 ≤ 32 - ones := by omega
  have h4 : (4 : ℕ) ≤ 2 ^ (32 - ones) := by
    calc (4 : ℕ) = 2 ^ 2 := by norm_num
    _ ≤ 2 ^ (32 - ones) := Nat.pow_le_pow_right (by norm_num) hk
  have h32 : 2 ^ (32 - ones) ≤ 2 ^ 32 := Nat.pow_le_pow_right (by norm_num) (by omega)
  have hn := networkAddr_le base ones
  have hLe := lastUsable_eq base ones (by omega)
  have h32' : (2 : ℕ) ^ 32 = 4294967296 := by norm_num
  have h33 : (2 : ℕ) ^ 33 = 8589934592 := by norm_num
  unfold firstUsable at *
  omega

theorem lastUsable_31 (base : ℕ) : lastUsable base 31 = networkAddr base 31 := by
  rw [lastUsable_eq base 31 (le_refl _)]
  have h1 : (2 : ℕ) ^ (32 - 31) = 2 := by norm_num
  omega

/-- C1 amended: for every subnet with prefix length at most 30 and every
duplicate-free in-use set contained in `[firstUsable, lastUsable - 2]` (i.e.
containing neither the last usable address nor the one below it), the
returned ranges are pairwise disjoint and sorted ascending by start, carry
exact `numAddresses`, and their union with the in-use addresses partitions
`[firstUsable, lastUsable]` exactly, with no overlap between ranges and
in-use addresses. -/
theorem c1_amended (base ones : ℕ) (inUse : List ℕ)
    (hbase : base < 2 ^ 32) (hones : ones ≤ 30) (hnodup : inUse.Nodup)
    (hmem : ∀ x ∈ inUse,
      firstUsable base ones ≤ x ∧ x + 2 ≤ lastUsable base ones) :
    (∀ r ∈ subnetUnreservedIPRanges base ones inUse,
        firstUsable base ones ≤ r.startUint ∧ r.startUint ≤ r.endUint ∧
        r.endUint ≤ lastUsable base ones ∧
        r.numAddresses = r.endUint + 1 - r.startUint) ∧
    List.Pairwise (fun r r' => r.endUint < r'.startUint)
      (subnetUnreservedIPRanges base ones inUse) ∧
    (∀ a : ℕ,
      (firstUsable base ones ≤ a ∧ a ≤ lastUsable base ones) ↔
        (a ∈ inUse ∨ coveredBy a (subnetUnreservedIPRanges base ones inUse))) ∧
    (∀ a ∈ inUse, ¬ coveredBy a (subnetUnreservedIPRanges base ones inUse)) := by
  obtain ⟨hf1, hfL, hL33, -⟩ := subnet_bounds base ones hbase hones
  unfold subnetUnreservedIPRanges
  set s := List.insertionSort (· ≤ ·) inUse with hs
  have hsmem : ∀ a : ℕ, a ∈ s ↔ a ∈ inUse := fun a =>
    (List.perm_insertionSort (· ≤ ·) inUse).mem_iff
  have hspw : List.Pairwise (· < ·) s :=
    pairwise_lt_of_le_nodup s (List.sorted_insertionSort (· ≤ ·) inUse)
      ((List.perm_insertionSort (· ≤ ·) inUse).nodup_iff.mpr hnodup)
  have hsbound : ∀ x ∈ s,
      firstUsable base ones ≤ x ∧ x + 1 ≤ lastUsable base ones := by
    intro x hx
    have := hmem x ((hsmem x).mp hx)
    omega
  obtain ⟨i1, i2, i3, i4, i5, i6⟩ :=
    unresLoop_spec (lastUsable base ones) hL33 s (firstUsable base ones)
      hf1 (by omega) hspw hsbound
  refine ⟨i1, i2, ?_, ?_⟩
  · intro a
    constructor
    · rintro ⟨ha1, ha2⟩
      by_cases hin : a ∈ inUse
      · exact Or.inl hin
      · rcases eq_or_lt_of_le ha2 with rfl | hlt2
        · exact Or.inr (i6 hfL (fun x hx => (hmem x ((hsmem x).mp hx)).2))
        · exact Or.inr (i3 a ha1 hlt2 (fun h => hin ((hsmem a).mp h)))
    · rintro (hin | hcov)
      · have := hmem a hin
        omega
      · exact i4 a hcov
  · intro a ha
    exact i5 a ((hsmem a).mpr ha)

/-- C1 witness: the fragmented scenario 10.0.0.0/28 with in-use
{10.0.0.3, 10.0.0.4, 10.0.0.5, 10.0.0.9} satisfies the hypotheses, and the
partition guarantee holds there. -/
theorem c1_witness :
    ((167772160 : ℕ) < 2 ^ 32 ∧ (28 : ℕ) ≤ 30 ∧
      ([167772163, 167772164, 167772165, 167772169] : List ℕ).Nodup ∧
      (∀ x ∈ ([167772163, 167772164, 167772165, 167772169] : List ℕ),
        firstUsable 167772160 28 ≤ x ∧ x + 2 ≤ lastUsable 167772160 28)) ∧
    ((∀ r ∈ subnetUnreservedIPRanges 167772160 28
          [167772163, 167772164, 167772165, 167772169],
        firstUsable 167772160 28 ≤ r.startUint ∧ r.startUint ≤ r.endUint ∧
        r.endUint ≤ lastUsable 167772160 28 ∧
        r.numAddresses = r.endUint + 1 - r.startUint) ∧
      List.Pairwise (fun r r' => r.endUint < r'.startUint)
        (subnetUnreservedIPRanges 167772160 28
          [167772163, 167772164, 167772165, 167772169]) ∧
      (∀ a : ℕ,
        (firstUsable 167772160 28 ≤ a ∧ a ≤ lastUsable 167772160 28) ↔
          (a ∈ ([167772163, 167772164, 167772165, 167772169] : List ℕ) ∨
            coveredBy a (subnetUnreservedIPRanges 167772160 28
              [167772163, 167772164, 167772165, 167772169]))) ∧
      (∀ a ∈ ([167772163, 167772164, 167772165, 167772169] : List ℕ),
        ¬ coveredBy a (subnetUnreservedIPRanges 167772160 28
            [167772163, 167772164, 167772165, 167772169]))) :=
  ⟨⟨by norm_num, by norm_num, by decide, by decide⟩,
    c1_amended 167772160 28 [167772163, 167772164, 167772165, 167772169]
      (by norm_num) (by norm_num) (by decide) (by decide)⟩

theorem foldl_max_le (A : ℕ) : ∀ (rs : List AddressRange) (init : ℕ),
    init ≤ A → (∀ r ∈ rs, r.numAddresses ≤ A) →
    List.foldl (fun acc r => if acc < r.numAddresses then r.numAddresses else acc)
      init rs ≤ A := by
  intro rs
  induction rs with
  | nil => intro init h _; exact h
  | cons r t ih =>
      intro init h hall
      rw [List.foldl_cons]
      apply ih
      · by_cases hc : init < r.numAddresses
        · rw [if_pos hc]
          exact hall r (List.mem_cons_self r t)
        · rw [if_neg hc]
          exact h
      · intro r' hr'
        exact hall r' (List.mem_cons_of_mem _ hr')

/-- C6 amended: for every subnet (any prefix length) and every duplicate-free
in-use set contained in `[firstUsable, lastUsable - 1]` (the last usable
address not in use), `LargestAvailable ≤ NumAvailable`. -/
theorem c6_amended (base ones : ℕ) (inUse : List ℕ) (b : Bool)
    (hbase : base < 2 ^ 32) (hnodup : inUse.Nodup)
    (hmem : ∀ x ∈ inUse,
      firstUsable base ones ≤ x ∧ x + 1 ≤ lastUsable base ones) :
    (subnetStatistics base ones inUse b).largestAvailable ≤
      (subnetStatistics base ones inUse b).numAvailable := by
  have hu64 : u64 = 18446744073709551616 := rfl
  have h32' : (2 : ℕ) ^ 32 = 4294967296 := by norm_num
  have h33 : (2 : ℕ) ^ 33 = 8589934592 := by norm_num
  have hla : (subnetStatistics base ones inUse b).largestAvailable =
      List.foldl (fun acc r => if acc < r.numAddresses then r.numAddresses else acc)
        0 (subnetUnreservedIPRanges base ones inUse) := rfl
  have hav : (subnetStatistics base ones inUse b).numAvailable =
      wsub (wsub (2 ^ (32 - ones)) 2) (inUse.length % u64) := rfl
  by_cases hones : ones ≤ 30
  · obtain ⟨hf1, hfL, hL33, hT⟩ := subnet_bounds base ones hbase hones
    have hsmem : ∀ a : ℕ, a ∈ List.insertionSort (· ≤ ·) inUse ↔ a ∈ inUse :=
      fun a => (List.perm_insertionSort (· ≤ ·) inUse).mem_iff
    have hspw : List.Pairwise (· < ·) (List.insertionSort (· ≤ ·) inUse) :=
      pairwise_lt_of_le_nodup _ (List.sorted_insertionSort (· ≤ ·) inUse)
        ((List.perm_insertionSort (· ≤ ·) inUse).nodup_iff.mpr hnodup)
    have hsbound : ∀ x ∈ List.insertionSort (· ≤ ·) inUse,
        firstUsable base ones ≤ x ∧ x + 1 ≤ lastUsable base ones :=
      fun x hx => hmem x ((hsmem x).mp hx)
    obtain ⟨i1, i2, i3, i4, i5, i6⟩ :=
      unresLoop_spec (lastUsable base ones) hL33
        (List.insertionSort (· ≤ ·) inUse) (firstUsable base ones)
        hf1 (by omega) hspw hsbound
    -- cardinality of the in-use set
    have hsubT : inUse.toFinset ⊆
        Finset.Icc (firstUsable base ones) (lastUsable base ones) := by
      intro a ha
      rw [List.mem_toFinset] at ha
      rw [Finset.mem_Icc]
      have := hmem a ha
      omega
    have hUcard : inUse.length ≤
        lastUsable base ones + 1 - firstUsable base ones := by
      have h1 := Finset.card_le_card hsubT
      rw [Nat.card_Icc, List.toFinset_card_of_nodup hnodup] at h1
      exact h1
    have hUlt : inUse.length % u64 = inUse.length :=
      Nat.mod_eq_of_lt (by omega)
    have hTT : wsub (2 ^ (32 - ones)) 2 = 2 ^ (32 - ones) - 2 := by
      have h4 : (4 : ℕ) ≤ 2 ^ (32 - ones) := by
        calc (4 : ℕ) = 2 ^ 2 := by norm_num
        _ ≤ 2 ^ (32 - ones) := Nat.pow_le_pow_right (by norm_num) (by omega)
      have h32 : 2 ^ (32 - ones) ≤ 2 ^ 32 :=
        Nat.pow_le_pow_right (by norm_num) (by omega)
      exact wsub_eq (by omega) (by omega)
    have hUT : inUse.length ≤ 2 ^ (32 - ones) - 2 := by omega
    have havail : wsub (2 ^ (32 - ones) - 2) inUse.length =
        (2 ^ (32 - ones) - 2) - inUse.length := by
      have h32 : 2 ^ (32 - ones) ≤ 2 ^ 32 :=
        Nat.pow_le_pow_right (by norm_num) (by omega)
      exact wsub_eq hUT (by omega)
    rw [hla, hav, hUlt, hTT, havail]
    apply foldl_max_le
    · exact Nat.zero_le _
    · intro r hr
      obtain ⟨a1, a2, a3, a4⟩ := i1 r hr
      rw [a4]
      have hsub : Finset.Icc r.startUint r.endUint ⊆
          Finset.Icc (firstUsable base ones) (lastUsable base ones) \
            inUse.toFinset := by
        intro a ha
        rw [Finset.mem_Icc] at ha
        rw [Finset.mem_sdiff, Finset.mem_Icc]
        refine ⟨i4 a ⟨r, hr, ha.1, ha.2⟩, ?_⟩
        intro hmem2
        rw [List.mem_toFinset] at hmem2
        exact i5 a ((hsmem a).mpr hmem2) ⟨r, hr, ha.1, ha.2⟩
      have hcard := Finset.card_le_card hsub
      rw [Nat.card_Icc, Finset.card_sdiff hsubT, Nat.card_Icc,
        List.toFinset_card_of_nodup hnodup] at hcard
      omega
  · -- prefix 31 or 32 (or a degenerate larger value): the usable span is
    -- empty, so the hypotheses force an empty in-use set, and the single
    -- degenerate emitted range has numAddresses 0.
    have hLn : lastUsable base ones = networkAddr base ones := by
      rcases le_or_lt 32 ones with h | h
      · exact lastUsable_ge32 base ones h
      · have h31 : ones = 31 := by omega
        subst h31
        exact lastUsable_31 base
    have hemp : inUse = [] := by
      cases hIn : inUse with
      | nil => rfl
      | cons a t =>
          exfalso
          have hm := hmem a (hIn ▸ List.mem_cons_self a t)
          rw [hLn] at hm
          unfold firstUsable at hm
          omega
    subst hemp
    have hn := networkAddr_le base ones
    have hrs : subnetUnreservedIPRanges base ones [] =
        [mkRange (networkAddr base ones + 1) (networkAddr base ones)] := by
      show unresLoop (lastUsable base ones) [] (firstUsable base ones) [] = _
      rw [hLn]
      unfold firstUsable
      simp only [unresLoop]
      rw [if_pos (by omega)]
      simp
    have hnum :
        (mkRange (networkAddr base ones + 1) (networkAddr base ones)).numAddresses
          = 0 := by
      show wsub (wadd 1 (networkAddr base ones)) (networkAddr base ones + 1) = 0
      rw [wadd_eq (by omega), wsub_eq (by omega) (by omega)]
      omega
    rw [hla, hrs]
    simp only [List.foldl_cons, List.foldl_nil, hnum]
    simp

/-- C6 witness: the fragmented 10.0.0.0/28 scenario satisfies the hypotheses
and there `LargestAvailable ≤ NumAvailable` holds. -/
theorem c6_witness :
    ((167772160 : ℕ) < 2 ^ 32 ∧
      ([167772163, 167772164, 167772165, 167772169] : List ℕ).Nodup ∧
      (∀ x ∈ ([167772163, 167772164, 167772165, 167772169] : List ℕ),
        firstUsable 167772160 28 ≤ x ∧ x + 1 ≤ lastUsable 167772160 28)) ∧
    (subnetStatistics 167772160 28 [167772163, 167772164, 167772165, 167772169]
        false).largestAvailable ≤
      (subnetStatistics 167772160 28 [167772163, 167772164, 167772165, 167772169]
        false).numAvailable :=
  ⟨⟨by norm_num, by decide, by decide⟩,
    c6_amended 167772160 28 [167772163, 167772164, 167772165, 167772169] false
      (by norm_num) (by decide) (by decide)⟩

/-- C7 amended: for every /31 subnet with an empty in-use set the unreserved
computation returns one degenerate range ⟨network+1, network, 0⟩ covering no
addresses (not a zero-length list); the statistics are all zero except that
the usage fraction is a 0/0 float division (NaN, modelled `none`) rather
than 0; neither operation reports an error (both are total).  For a /32 the
claim's own premise fails: `TotalAddresses` is `(1 << 0) - 2` in `uint`
arithmetic, i.e. `2^64 - 1`, not 0. -/
theorem c7_amended (base : ℕ) (hbase : base < 2 ^ 32) (b : Bool) :
    subnetUnreservedIPRanges base 31 [] =
      [mkRange (networkAddr base 31 + 1) (networkAddr base 31)] ∧
    (mkRange (networkAddr base 31 + 1) (networkAddr base 31)).numAddresses = 0 ∧
    (subnetStatistics base 31 [] b).totalAddresses = 0 ∧
    (subnetStatistics base 31 [] b).numUnavailable = 0 ∧
    (subnetStatistics base 31 [] b).numAvailable = 0 ∧
    (subnetStatistics base 31 [] b).largestAvailable = 0 ∧
    (subnetStatistics base 31 [] b).usage = none ∧
    (subnetStatistics base 32 [] b).totalAddresses = u64 - 1 := by
  have hu64 : u64 = 18446744073709551616 := rfl
  have h32' : (2 : ℕ) ^ 32 = 4294967296 := by norm_num
  have hn := networkAddr_le base 31
  have hrs : subnetUnreservedIPRanges base 31 [] =
      [mkRange (networkAddr base 31 + 1) (networkAddr base 31)] := by
    show unresLoop (lastUsable base 31) [] (firstUsable base 31) [] = _
    rw [lastUsable_31]
    unfold firstUsable
    simp only [unresLoop]
    rw [if_pos (by omega)]
    simp
  have hnum :
      (mkRange (networkAddr base 31 + 1) (networkAddr base 31)).numAddresses
        = 0 := by
    show wsub (wadd 1 (networkAddr base 31)) (networkAddr base 31 + 1) = 0
    rw [wadd_eq (by omega), wsub_eq (by omega) (by omega)]
    omega
  have hla : (subnetStatistics base 31 [] b).largestAvailable =
      List.foldl (fun acc r => if acc < r.numAddresses then r.numAddresses else acc)
        0 (subnetUnreservedIPRanges base 31 []) := rfl
  have hlargest : (subnetStatistics base 31 [] b).largestAvailable = 0 := by
    rw [hla, hrs]
    simp only [List.foldl_cons, List.foldl_nil, hnum]
    simp
  have husage : (subnetStatistics base 31 [] b).usage = none := by
    have h0 : wsub 2 2 = 0 := by decide
    simp [subnetStatistics, h0]
  refine ⟨hrs, hnum, ?_, ?_, ?_, hlargest, husage, ?_⟩
  · show wsub (2 ^ (32 - 31)) 2 = 0
    decide
  · show ([] : List ℕ).length % u64 = 0
    decide
  · show wsub (wsub (2 ^ (32 - 31)) 2) (([] : List ℕ).length % u64) = 0
    decide
  · show wsub (2 ^ (32 - 32)) 2 = u64 - 1
    decide

/-- C7 witness: instance at 10.0.0.0. -/
theorem c7_witness :
    (167772160 : ℕ) < 2 ^ 32 ∧
    subnetUnreservedIPRanges 167772160 31 [] =
      [mkRange (networkAddr 167772160 31 + 1) (networkAddr 167772160 31)] ∧
    (subnetStatistics 167772160 31 [] false).totalAddresses = 0 ∧
    (subnetStatistics 167772160 31 [] false).usage = none ∧
    (subnetStatistics 167772160 32 [] false).totalAddresses = u64 - 1 :=
  ⟨by norm_num, (c7_amended 167772160 (by norm_num) false).1,
    (c7_amended 167772160 (by norm_num) false).2.2.1,
    (c7_amended 167772160 (by norm_num) false).2.2.2.2.2.2.1,
    (c7_amended 167772160 (by norm_num) false).2.2.2.2.2.2.2⟩

end Gomaasapi
